import Mathlib

/-!
Shallow embedding of the orbit-determination post-processing core of
`Tudat/Astrodynamics/OrbitDetermination/podProcessing.h`: observation
concatenation, time sorting of the information matrix, and the
covariance-as-a-function-of-time loop.  Times and matrix entries are
modelled as exact rationals; dynamically sized Eigen matrices are
modelled by `DMat` (dimensions plus a total entry function); the C++
exceptions and the out-of-bounds accesses are modelled by `Except`
with a dedicated error type; the unbounded `while` loop is modelled
with explicit fuel, fuel exhaustion standing for non-termination.
-/

attribute [local semireducible] Rat.add Rat.mul Rat.inv Rat.sub

/-- Dynamically sized rational matrix: dimensions plus an entry function
(the function is total; only indices below the dimensions are meaningful). -/
structure DMat where
  rows : Nat
  cols : Nat
  entry : Nat → Nat → ℚ

/-- Pointwise equality of the meaningful entries, together with equal dimensions. -/
def DMat.Ext (A B : DMat) : Prop :=
  A.rows = B.rows ∧ A.cols = B.cols ∧
    ∀ i < A.rows, ∀ j < A.cols, A.entry i j = B.entry i j

instance (A B : DMat) : Decidable (A.Ext B) := by
  unfold DMat.Ext; infer_instance

/-- Matrix transpose. -/
def DMat.transpose (A : DMat) : DMat :=
  ⟨A.cols, A.rows, fun i j => A.entry j i⟩

/-- Matrix product (the inner dimension is taken from the left factor). -/
def DMat.mul (A B : DMat) : DMat :=
  ⟨A.rows, B.cols, fun i j => ∑ k ∈ Finset.range A.cols, A.entry i k * B.entry k j⟩

/-- Matrix sum (dimensions taken from the left summand). -/
def DMat.add (A B : DMat) : DMat :=
  ⟨A.rows, A.cols, fun i j => A.entry i j + B.entry i j⟩

/-- Diagonal matrix built from a vector, as Eigen's `asDiagonal`. -/
def diagDMat (w : List ℚ) : DMat :=
  ⟨w.length, w.length, fun i j => if i = j then w.getD i 0 else 0⟩

/-- Matrix of zeros, as Eigen's `MatrixXd::Zero`. -/
def zeroDMat (r c : Nat) : DMat :=
  ⟨r, c, fun _ _ => 0⟩

/-- Overwrite row `i` of a matrix with the given row function
(models the row-block assignment `sortedMatrix.block( i, 0, 1, cols ) = ...`). -/
def setRow (M : DMat) (i : Nat) (row : Nat → ℚ) : DMat :=
  ⟨M.rows, M.cols, fun r c => if r = i then row c else M.entry r c⟩

/-- Matrix built from a list of rows. -/
def dmatOfLists (l : List (List ℚ)) (c : Nat) : DMat :=
  ⟨l.length, c, fun i j => (l.getD i []).getD j 0⟩

/-- Entry function of the minor obtained by deleting row `r` and column `c`. -/
def deleteRC (A : Nat → Nat → ℚ) (r c : Nat) : Nat → Nat → ℚ :=
  fun i j => A (if i < r then i else i + 1) (if j < c then j else j + 1)

/-- Determinant of the leading `n × n` block of an entry function, by cofactor
expansion along the first column. -/
def detAux : Nat → (Nat → Nat → ℚ) → ℚ
  | 0, _ => 1
  | n + 1, A =>
      ∑ r ∈ Finset.range (n + 1), (-1 : ℚ) ^ r * A r 0 * detAux n (deleteRC A r 0)

/-- Modelled from the spec: the numerical matrix inversion performed by Eigen's
`inverse()` on the covariance sum and on the unnormalization matrix is not part
of the sources; following section 4.5 of the spec it is modelled as an exact
inverse (cofactor formula) that fails on a non-invertible input instead of
producing infinities, and fails on a non-square input. -/
def dmatInv (A : DMat) : Option DMat :=
  if A.rows = A.cols then
    let d := detAux A.rows A.entry
    if d = 0 then none
    else
      some ⟨A.rows, A.rows, fun i j =>
        if i < A.rows ∧ j < A.rows then
          (-1 : ℚ) ^ (i + j) * detAux (A.rows - 1) (deleteRC A.entry j i) / d
        else 0⟩
  else none

/-- Observation data for one link-end set: the observation vector, the sample
times and the reference link-end tag, as in `SingleObservablePodInputType`. -/
structure SingleLinkObservations where
  observations : List ℚ
  times : List ℚ
  linkEndTag : Nat

/-- All data of one observable type: the observable's scalar dimension (the
value of the external `getObservableSize`) and the per-link-end data, in the
map's iteration order. -/
structure ObservableEntry where
  observableSize : Nat
  linkData : List SingleLinkObservations

/-- The nested observation structure `PodInputType`, with the two map levels
flattened to lists in canonical iteration order. -/
abbrev PodInputType := List ObservableEntry

/-- Embedding of `getConcatenatedTimeVector` (podProcessing.h lines 29-73):
concatenates all observation times, copying directly for observable size 1 and
repeating each sample time `size` times for larger observables. -/
def getConcatenatedTimeVector (measurementData : PodInputType) : List ℚ :=
  measurementData.foldl
    (fun acc observablesEntry =>
      observablesEntry.linkData.foldl
        (fun acc2 dataEntry =>
          if observablesEntry.observableSize = 1 then
            acc2 ++ dataEntry.times
          else
            acc2 ++ dataEntry.times.foldl
              (fun cur t => cur ++ List.replicate observablesEntry.observableSize t) [])
        acc)
    []

/-- Index comparison used to sort observation indices by their time, ties
broken by the original index (a stable, deterministic order). -/
def timeIdxLe (v : List ℚ) (i j : Nat) : Prop :=
  v.getD i 0 < v.getD j 0 ∨ (v.getD i 0 = v.getD j 0 ∧ i ≤ j)

instance (v : List ℚ) : DecidableRel (timeIdxLe v) := by
  unfold timeIdxLe; infer_instance

/-- Modelled from the spec: `utilities::getSortOrderOfVectorAndSortedVector`
is not part of the sources; following section 4.2 of the spec it returns the
permutation of the indices that sorts the times ascending, stable under ties,
together with the sorted time vector. -/
def getSortOrderOfVectorAndSortedVector (v : List ℚ) : List Nat × List ℚ :=
  let order := List.insertionSort (timeIdxLe v) (List.range v.length)
  (order, order.map (fun i => v.getD i 0))

/-- Error conditions of the covariance pipeline.  The four shape conditions and
`sortSizeMismatch`, `outputTimeNotFound` model `std::runtime_error` throws of
the sources; `indexOutOfBounds` models the undefined out-of-bounds
`orderedTimeVector[ 0 ]` read on an empty time vector; `singularMatrix` models
the spec's SingularMatrix condition of the (externally provided) numeric
inversion; `outOfFuel` models non-termination of the output-time loop. -/
inductive PodError where
  | aprioriNotSquare
  | paramInfoMismatch
  | paramNormMismatch
  | weightsMismatch
  | sortSizeMismatch
  | outputTimeNotFound
  | indexOutOfBounds
  | singularMatrix
  | outOfFuel
deriving DecidableEq

/-- Embedding of `getTimeOrderedInformationMatrix` (podProcessing.h lines
126-159): sorts the concatenated times, checks that the sort order's length
matches the information matrix's row count, and builds the row-permuted matrix
by writing row `timeOrder[i]` of the input into row `i` of a zero matrix.
Returns the sorted matrix, the sorted time vector and (modelling the by-reference
output parameter `timeOrder`) the sort order. -/
def getTimeOrderedInformationMatrix (measurementData : PodInputType)
    (typeAndLinkSortedInformationMatrix : DMat) :
    Except PodError (DMat × List ℚ × List Nat) :=
  let concatenatedTimes := getConcatenatedTimeVector measurementData
  let sortOutput := getSortOrderOfVectorAndSortedVector concatenatedTimes
  let timeVectorSortOrder := sortOutput.1
  if timeVectorSortOrder.length ≠ typeAndLinkSortedInformationMatrix.rows then
    .error .sortSizeMismatch
  else
    let sortedMatrix :=
      (List.range timeVectorSortOrder.length).foldl
        (fun acc i =>
          setRow acc i
            (fun c => typeAndLinkSortedInformationMatrix.entry
              (timeVectorSortOrder.getD i 0) c))
        (zeroDMat typeAndLinkSortedInformationMatrix.rows
          typeAndLinkSortedInformationMatrix.cols)
    .ok (sortedMatrix, sortOutput.2, timeVectorSortOrder)

/-- Modelled from the spec: `BinarySearchLookupScheme::findNearestLowerNeighbour`
is not part of the sources; following section 4.4 of the spec it returns the
largest index whose time does not exceed the query, rightmost among duplicates,
clamped to `[0, N-1]` at both ends. -/
def findNearestLowerNeighbour (v : List ℚ) (t : ℚ) : Nat :=
  match v.findIdx? (fun x => decide (t < x)) with
  | none => v.length - 1
  | some 0 => 0
  | some (i + 1) => i

/-- One step of the tie-extension `while` loop of podProcessing.h lines
247-254: advance while the current and next sorted times are equal, stopping
at the last row.  The first argument is fuel bounding the number of steps;
`tieExtend` supplies enough for the walk to finish. -/
def tieExtendAux (v : List ℚ) : Nat → Nat → Nat
  | 0, i => i
  | k + 1, i =>
      if v.getD i 0 = v.getD (i + 1) 0 then
        if i + 1 = v.length - 1 then i + 1 else tieExtendAux v k (i + 1)
      else i

/-- Embedding of the tie-extension logic of podProcessing.h lines 245-255:
runs the equal-time walk only when the start index is not the last row. -/
def tieExtend (v : List ℚ) (i : Nat) : Nat :=
  if i ≠ v.length - 1 then tieExtendAux v v.length i else i

/-- Modelled from the spec: `linear_algebra::calculateInverseOfUpdatedCovarianceMatrix`
is not part of the sources; following section 4.5 of the spec it is the sum
a-priori-inverse + informationMatrixᵀ · diag(weights) · informationMatrix. -/
def calculateInverseOfUpdatedCovarianceMatrix (informationMatrix : DMat)
    (weightsDiagonal : List ℚ) (inverseOfAPrioriCovarianceMatrix : DMat) : DMat :=
  inverseOfAPrioriCovarianceMatrix.add
    ((informationMatrix.transpose.mul (diagDMat weightsDiagonal)).mul informationMatrix)

/-- Embedding of the loop body of podProcessing.h lines 262-270 at a given
extended index: restrict the time-ordered information matrix and weights to the
first `idx + 1` rows, form the updated normalized inverse covariance, and store
unnormalizationMatrix⁻¹ · (sum)⁻¹ · unnormalizationMatrix⁻¹, failing with
`singularMatrix` when either inversion fails. -/
def covAtIndex (sortedMat : DMat) (orderedWeights : List ℚ)
    (normalizationFactors : List ℚ) (aprioriInv : DMat) (idx : Nat) :
    Except PodError DMat :=
  let currentInformationMatrix : DMat := ⟨idx + 1, sortedMat.cols, sortedMat.entry⟩
  let currentInverseNormalizedCovarianceMatrix :=
    calculateInverseOfUpdatedCovarianceMatrix currentInformationMatrix
      (orderedWeights.take (idx + 1)) aprioriInv
  match dmatInv (diagDMat normalizationFactors),
      dmatInv currentInverseNormalizedCovarianceMatrix with
  | some unnormInv, some covNormalized =>
      .ok ((unnormInv.mul covNormalized).mul unnormInv)
  | _, _ => .error .singularMatrix

/-- Key-ordered insertion into the history, as `std::map` assignment: keeps the
keys strictly increasing and replaces the value at an existing key. -/
def mapInsert (m : List (ℚ × DMat)) (k : ℚ) (val : DMat) : List (ℚ × DMat) :=
  match m with
  | [] => [(k, val)]
  | (k', v') :: rest =>
      if k < k' then (k, val) :: (k', v') :: rest
      else if k = k' then (k, val) :: rest
      else (k', v') :: mapInsert rest k val

/-- Embedding of the output-time `while` loop of podProcessing.h lines 237-271,
with explicit fuel: while the current time is below the last observation time,
advance it by the output step, look up the nearest lower neighbour, extend
through ties, and store the covariance of the corresponding observation set,
keyed by the time at the extended index. -/
def covarianceLoop (orderedTimes : List ℚ) (sortedMat : DMat)
    (orderedWeights : List ℚ) (normalizationFactors : List ℚ) (aprioriInv : DMat)
    (outputTimeStep : ℚ) :
    Nat → ℚ → List (ℚ × DMat) → Except PodError (List (ℚ × DMat))
  | 0, currentTime, hist =>
      if currentTime < orderedTimes.getD (orderedTimes.length - 1) 0 then
        .error .outOfFuel
      else .ok hist
  | fuel + 1, currentTime, hist =>
      if currentTime < orderedTimes.getD (orderedTimes.length - 1) 0 then
        let currentTime := currentTime + outputTimeStep
        let currentIndex := tieExtend orderedTimes
          (findNearestLowerNeighbour orderedTimes currentTime)
        if orderedTimes.length ≤ currentIndex then .error .outputTimeNotFound
        else
          match covAtIndex sortedMat orderedWeights normalizationFactors
              aprioriInv currentIndex with
          | .error e => .error e
          | .ok cov =>
              covarianceLoop orderedTimes sortedMat orderedWeights
                normalizationFactors aprioriInv outputTimeStep fuel currentTime
                (mapInsert hist (orderedTimes.getD currentIndex 0) cov)
      else .ok hist

/-- Embedding of the weight-reordering loop of podProcessing.h lines 215-219:
entry `i` of the reordered weight diagonal is entry `timeOrder[i]` of the input. -/
def timeOrderWeights (diagonalOfWeightMatrix : List ℚ) (timeOrder : List Nat) :
    List ℚ :=
  (List.range timeOrder.length).map
    (fun i => diagonalOfWeightMatrix.getD (timeOrder.getD i 0) 0)

/-- Embedding of `calculateCovarianceMatrixAsFunctionOfTime` (podProcessing.h
lines 175-275): the four eager shape checks in source order, then the
time-ordering of the information matrix and weights, then the output-time loop.
An empty ordered time vector makes the source read `orderedTimeVector[ 0 ]` out
of bounds, modelled by `indexOutOfBounds`. -/
def calculateCovarianceMatrixAsFunctionOfTime (measurementData : PodInputType)
    (typeAndLinkSortedNormalizedInformationMatrix : DMat)
    (normalizationFactors : List ℚ) (outputTimeStep : ℚ)
    (diagonalOfWeightMatrix : List ℚ)
    (normalizedInverseAPrioriCovariance : DMat) (fuel : Nat) :
    Except PodError (List (ℚ × DMat)) :=
  if normalizedInverseAPrioriCovariance.cols ≠ normalizedInverseAPrioriCovariance.rows then
    .error .aprioriNotSquare
  else
    let totalNumberOfParameters := normalizedInverseAPrioriCovariance.cols
    if typeAndLinkSortedNormalizedInformationMatrix.cols ≠ totalNumberOfParameters then
      .error .paramInfoMismatch
    else if normalizationFactors.length ≠ totalNumberOfParameters then
      .error .paramNormMismatch
    else if typeAndLinkSortedNormalizedInformationMatrix.rows ≠
        diagonalOfWeightMatrix.length then
      .error .weightsMismatch
    else
      match getTimeOrderedInformationMatrix measurementData
          typeAndLinkSortedNormalizedInformationMatrix with
      | .error e => .error e
      | .ok (sortedMat, orderedTimeVector, timeOrder) =>
          let timeOrderedDiagonalOfWeightMatrix :=
            timeOrderWeights diagonalOfWeightMatrix timeOrder
          match orderedTimeVector with
          | [] => .error .indexOutOfBounds
          | currentTime :: _ =>
              covarianceLoop orderedTimeVector sortedMat
                timeOrderedDiagonalOfWeightMatrix normalizationFactors
                normalizedInverseAPrioriCovariance outputTimeStep fuel
                currentTime []

/-- Keys of a successfully computed covariance history. -/
def histKeys (r : Except PodError (List (ℚ × DMat))) : Option (List ℚ) :=
  match r with
  | .ok hist => some (hist.map Prod.fst)
  | .error _ => none

/-- Classification of the four eager shape errors of the pipeline. -/
def PodError.isShape : PodError → Bool
  | .aprioriNotSquare => true
  | .paramInfoMismatch => true
  | .paramNormMismatch => true
  | .weightsMismatch => true
  | _ => false

/-- Value stored in a successfully computed covariance history at a key. -/
def histVal (r : Except PodError (List (ℚ × DMat))) (t : ℚ) : Option DMat :=
  match r with
  | .ok hist => (hist.find? (fun p => p.1 == t)).map Prod.snd
  | .error _ => none

/-- Extensional comparison of an optional matrix against a matrix. -/
def optIsExt : Option DMat → DMat → Prop
  | some A, M => A.Ext M
  | none, _ => False

instance : (o : Option DMat) → (M : DMat) → Decidable (optIsExt o M)
  | some A, M => inferInstanceAs (Decidable (A.Ext M))
  | none, _ => inferInstanceAs (Decidable False)

/-- Error of a pipeline result, if any. -/
def errOf (r : Except PodError (List (ℚ × DMat))) : Option PodError :=
  match r with
  | .error e => some e
  | .ok _ => none

/-- Identity matrix. -/
def idMat (n : Nat) : DMat :=
  ⟨n, n, fun i j => if i = j then 1 else 0⟩

/-- Measurement data holding a single observable of dimension 1 with one
link-end set and the given observation times. -/
def mdTimes (ts : List ℚ) : PodInputType :=
  [⟨1, [⟨[], ts, 0⟩]⟩]

/-- Covariance history of the concrete run used to exercise the unnormalization
claim: two observation times, one parameter, normalization factor 2. -/
def c1hist : List (ℚ × DMat) :=
  (calculateCovarianceMatrixAsFunctionOfTime (mdTimes [0, 1])
    (dmatOfLists [[1], [1]] 1) [2] 1 [1, 1] (idMat 1) 5).toOption.getD []

/-- The covariance stored at the single output epoch of that run. -/
def c1val : DMat :=
  (histVal (calculateCovarianceMatrixAsFunctionOfTime (mdTimes [0, 1])
    (dmatOfLists [[1], [1]] 1) [2] 1 [1, 1] (idMat 1) 5) 1).getD (zeroDMat 0 0)

/-- Time-ordering output of the concrete run with observation times 0 and 3. -/
def c2Triple : DMat × List ℚ × List Nat :=
  (getTimeOrderedInformationMatrix (mdTimes [0, 3])
    (dmatOfLists [[1], [1]] 1)).toOption.getD (zeroDMat 0 0, [], [])

/-- Time-ordering output of the concrete all-zero-information run. -/
def c4Triple : DMat × List ℚ × List Nat :=
  (getTimeOrderedInformationMatrix (mdTimes [0, 1])
    (dmatOfLists [[0], [0]] 1)).toOption.getD (zeroDMat 0 0, [], [])

/-- Time-ordering output of the concrete run used for the termination claim. -/
def c9Triple : DMat × List ℚ × List Nat :=
  (getTimeOrderedInformationMatrix (mdTimes [0, 1])
    (dmatOfLists [[1], [1]] 1)).toOption.getD (zeroDMat 0 0, [], [])

/-- Covariance computed at a given index in the termination-claim run. -/
def c9cov (i : Nat) : DMat :=
  (covAtIndex c9Triple.1 (timeOrderWeights [1, 1] c9Triple.2.2) [1] (idMat 1)
    i).toOption.getD (zeroDMat 0 0)

/-- Time-ordering output of the concrete run whose second output step has a
singular sum while its first step succeeds. -/
def c4bTriple : DMat × List ℚ × List Nat :=
  (getTimeOrderedInformationMatrix (mdTimes [0, 1, 2])
    (dmatOfLists [[1], [1], [1]] 1)).toOption.getD (zeroDMat 0 0, [], [])

/-- Covariance produced by that run's first output step. -/
def c4bcov : DMat :=
  (covAtIndex c4bTriple.1 (timeOrderWeights [1, 1, -3] c4bTriple.2.2) [1]
    (idMat 1)
    (tieExtend c4bTriple.2.1
      (findNearestLowerNeighbour c4bTriple.2.1 1))).toOption.getD (zeroDMat 0 0)

/-! ### Basic list lemmas -/

theorem getD_eq_of_lt (l : List ℚ) (i : Nat) (h : i < l.length) :
    l.getD i 0 = l[i] := by
  simp [List.getD_eq_getElem?_getD, List.getElem?_eq_getElem h]

theorem getD_nat_eq_of_lt (l : List Nat) (i : Nat) (h : i < l.length) :
    l.getD i 0 = l[i] := by
  simp [List.getD_eq_getElem?_getD, List.getElem?_eq_getElem h]

theorem foldl_append_eq {α β : Type} (g : α → List β) :
    ∀ (l : List α) (a : List β),
      l.foldl (fun acc x => acc ++ g x) a = a ++ (l.map g).flatten
  | [], a => by simp
  | x :: l, a => by
      simp [foldl_append_eq g l (a ++ g x)]

theorem flatten_map_replicate_one {α : Type} :
    ∀ l : List α, (l.map (fun t => List.replicate 1 t)).flatten = l
  | [] => rfl
  | x :: l => by
      rw [List.map_cons, List.flatten_cons, flatten_map_replicate_one l]
      rfl

/-! ### Sorting layer -/

instance (v : List ℚ) : IsTotal Nat (timeIdxLe v) := by
  constructor
  intro i j
  unfold timeIdxLe
  rcases lt_trichotomy (v.getD i 0) (v.getD j 0) with h | h | h
  · exact Or.inl (Or.inl h)
  · rcases Nat.le_total i j with hij | hij
    · exact Or.inl (Or.inr ⟨h, hij⟩)
    · exact Or.inr (Or.inr ⟨h.symm, hij⟩)
  · exact Or.inr (Or.inl h)

instance (v : List ℚ) : IsTrans Nat (timeIdxLe v) := by
  constructor
  intro i j k hij hjk
  unfold timeIdxLe at *
  rcases hij with h1 | ⟨h1, h1'⟩
  · rcases hjk with h2 | ⟨h2, _⟩
    · exact Or.inl (h1.trans h2)
    · exact Or.inl (h2 ▸ h1)
  · rcases hjk with h2 | ⟨h2, h2'⟩
    · exact Or.inl (h1 ▸ h2)
    · exact Or.inr ⟨h1.trans h2, h1'.trans h2'⟩

theorem timeIdxLe_le {v : List ℚ} {i j : Nat} (h : timeIdxLe v i j) :
    v.getD i 0 ≤ v.getD j 0 := by
  rcases h with h | ⟨h, _⟩
  · exact le_of_lt h
  · exact le_of_eq h

theorem sortOrder_length (v : List ℚ) :
    (getSortOrderOfVectorAndSortedVector v).1.length = v.length := by
  simp [getSortOrderOfVectorAndSortedVector]

theorem sortedVec_length (v : List ℚ) :
    (getSortOrderOfVectorAndSortedVector v).2.length = v.length := by
  simp [getSortOrderOfVectorAndSortedVector]

theorem sortedVec_sorted (v : List ℚ) :
    List.Sorted (· ≤ ·) (getSortOrderOfVectorAndSortedVector v).2 := by
  unfold getSortOrderOfVectorAndSortedVector
  exact List.Pairwise.map _ (fun _ _ h => timeIdxLe_le h)
    (List.sorted_insertionSort (timeIdxLe v) (List.range v.length))

theorem sortOrder_mem {v : List ℚ} {i : Nat}
    (h : i ∈ (getSortOrderOfVectorAndSortedVector v).1) : i < v.length := by
  unfold getSortOrderOfVectorAndSortedVector at h
  simpa using (List.perm_insertionSort (timeIdxLe v) (List.range v.length)).mem_iff.mp h

/-! ### Sorted-list access lemmas -/

theorem sorted_getD_le_getD {v : List ℚ} (hs : List.Sorted (· ≤ ·) v) {i j : Nat}
    (hij : i ≤ j) (hj : j < v.length) : v.getD i 0 ≤ v.getD j 0 := by
  rw [getD_eq_of_lt v i (lt_of_le_of_lt hij hj), getD_eq_of_lt v j hj]
  exact hs.rel_get_of_le (show (⟨i, lt_of_le_of_lt hij hj⟩ : Fin v.length) ≤ ⟨j, hj⟩ from hij)

theorem sorted_getD_le_last {v : List ℚ} (hs : List.Sorted (· ≤ ·) v) {i : Nat}
    (hi : i < v.length) : v.getD i 0 ≤ v.getD (v.length - 1) 0 :=
  sorted_getD_le_getD hs (Nat.le_sub_one_of_lt hi)
    (Nat.sub_lt (Nat.pos_of_ne_zero
      (by intro h0; rw [h0] at hi; exact Nat.not_lt_zero i hi)) Nat.one_pos)


/-! ### Row-writing fold lemmas -/

theorem foldl_setRow_rows (f : Nat → Nat → ℚ) :
    ∀ (l : List Nat) (acc : DMat),
      (l.foldl (fun a i => setRow a i (f i)) acc).rows = acc.rows
  | [], _ => rfl
  | x :: l, acc => foldl_setRow_rows f l (setRow acc x (f x))

theorem foldl_setRow_cols (f : Nat → Nat → ℚ) :
    ∀ (l : List Nat) (acc : DMat),
      (l.foldl (fun a i => setRow a i (f i)) acc).cols = acc.cols
  | [], _ => rfl
  | x :: l, acc => foldl_setRow_cols f l (setRow acc x (f x))

theorem setRow_entry (M : DMat) (i : Nat) (row : Nat → ℚ) (r c : Nat) :
    (setRow M i row).entry r c = if r = i then row c else M.entry r c := rfl

theorem foldl_setRow_range_entry (f : Nat → Nat → ℚ) :
    ∀ (n : Nat) (acc : DMat) (r c : Nat),
      ((List.range n).foldl (fun a i => setRow a i (f i)) acc).entry r c =
        if r < n then f r c else acc.entry r c
  | 0, acc, r, c => by simp
  | n + 1, acc, r, c => by
      rw [List.range_succ, List.foldl_append]
      simp only [List.foldl_cons, List.foldl_nil]
      rw [setRow_entry]
      by_cases h2 : r = n
      · simp only [if_pos h2, h2, Nat.lt_succ_self, if_pos]
      · simp only [if_neg h2]
        rw [foldl_setRow_range_entry f n acc r c]
        by_cases h1 : r < n
        · simp only [if_pos h1, if_pos (Nat.lt_succ_of_lt h1)]
        · have : ¬ r < n + 1 := by omega
          simp only [if_neg h1, if_neg this]

/-! ### Nearest-lower-neighbour and tie-extension lemmas -/

theorem fNLN_le (v : List ℚ) (t : ℚ) :
    findNearestLowerNeighbour v t ≤ v.length - 1 := by
  unfold findNearestLowerNeighbour
  cases h : v.findIdx? (fun x => decide (t < x)) with
  | none => exact le_rfl
  | some i =>
      obtain ⟨hlen, -, -⟩ := List.findIdx?_eq_some_iff_getElem.mp h
      cases i with
      | zero => exact Nat.zero_le _
      | succ j => exact Nat.le_sub_one_of_lt (Nat.lt_of_succ_lt hlen)

theorem fNLN_of_last_le {v : List ℚ} (hs : List.Sorted (· ≤ ·) v)
    {t : ℚ} (ht : v.getD (v.length - 1) 0 ≤ t) :
    findNearestLowerNeighbour v t = v.length - 1 := by
  unfold findNearestLowerNeighbour
  have hnone : v.findIdx? (fun x => decide (t < x)) = none := by
    rw [List.findIdx?_eq_none_iff]
    intro x hx
    simp only [decide_eq_false_iff_not, not_lt]
    obtain ⟨i, hi, rfl⟩ := List.mem_iff_getElem.mp hx
    calc v[i] = v.getD i 0 := (getD_eq_of_lt v i hi).symm
      _ ≤ v.getD (v.length - 1) 0 := sorted_getD_le_last hs hi
      _ ≤ t := ht
  rw [hnone]

theorem tieExtendAux_le {v : List ℚ} :
    ∀ (k : Nat) {i : Nat}, i < v.length - 1 → tieExtendAux v k i ≤ v.length - 1
  | 0, i, h => by unfold tieExtendAux; omega
  | k + 1, i, h => by
      unfold tieExtendAux
      by_cases heq : v.getD i 0 = v.getD (i + 1) 0
      · rw [if_pos heq]
        by_cases hlast : i + 1 = v.length - 1
        · rw [if_pos hlast]; omega
        · rw [if_neg hlast]
          exact tieExtendAux_le k (by omega)
      · rw [if_neg heq]; omega

theorem tieExtend_le {v : List ℚ} {i : Nat} (h : i ≤ v.length - 1) :
    tieExtend v i ≤ v.length - 1 := by
  unfold tieExtend
  by_cases hi : i ≠ v.length - 1
  · rw [if_pos hi]
    exact tieExtendAux_le v.length (by omega)
  · rw [if_neg hi]
    exact h

theorem tieExtend_last {v : List ℚ} :
    tieExtend v (v.length - 1) = v.length - 1 := by
  unfold tieExtend
  simp

theorem tieExtendAux_no_split {v : List ℚ} :
    ∀ (k : Nat) {i : Nat}, i < v.length - 1 → v.length - 1 - i ≤ k →
      tieExtendAux v k i = v.length - 1 ∨
        v.getD (tieExtendAux v k i) 0 ≠ v.getD (tieExtendAux v k i + 1) 0
  | 0, i, h, hk => by exfalso; omega
  | k + 1, i, h, hk => by
      unfold tieExtendAux
      by_cases heq : v.getD i 0 = v.getD (i + 1) 0
      · rw [if_pos heq]
        by_cases hlast : i + 1 = v.length - 1
        · rw [if_pos hlast]
          exact Or.inl hlast
        · rw [if_neg hlast]
          exact tieExtendAux_no_split k (by omega) (by omega)
      · rw [if_neg heq]
        exact Or.inr heq

theorem tieExtend_no_split {v : List ℚ} {i : Nat} (h : i < v.length) :
    tieExtend v i = v.length - 1 ∨
      v.getD (tieExtend v i) 0 ≠ v.getD (tieExtend v i + 1) 0 := by
  unfold tieExtend
  by_cases hi : i ≠ v.length - 1
  · rw [if_pos hi]
    exact tieExtendAux_no_split v.length (by omega) (by omega)
  · rw [if_neg hi]
    push_neg at hi
    exact Or.inl hi

/-! ### History-map lemmas -/

theorem mem_mapInsert {k : ℚ} {val : DMat} :
    ∀ {m : List (ℚ × DMat)} {t : ℚ} {M : DMat}, (t, M) ∈ mapInsert m k val →
      (t = k ∧ M = val) ∨ (t, M) ∈ m
  | [], t, M, h => by
      simp only [mapInsert, List.mem_singleton, Prod.mk.injEq] at h
      exact Or.inl h
  | (k', v') :: rest, t, M, h => by
      unfold mapInsert at h
      by_cases h1 : k < k'
      · rw [if_pos h1] at h
        rcases List.mem_cons.mp h with h | h
        · simp only [Prod.mk.injEq] at h
          exact Or.inl h
        · exact Or.inr h
      · rw [if_neg h1] at h
        by_cases h2 : k = k'
        · rw [if_pos h2] at h
          rcases List.mem_cons.mp h with h | h
          · simp only [Prod.mk.injEq] at h
            exact Or.inl h
          · exact Or.inr (List.mem_cons_of_mem _ h)
        · rw [if_neg h2] at h
          rcases List.mem_cons.mp h with h | h
          · exact Or.inr (List.mem_cons.mpr (Or.inl h))
          · rcases mem_mapInsert h with h' | h'
            · exact Or.inl h'
            · exact Or.inr (List.mem_cons_of_mem _ h')

theorem mapInsert_self_mem (k : ℚ) (val : DMat) :
    ∀ m : List (ℚ × DMat), (k, val) ∈ mapInsert m k val
  | [] => List.mem_singleton.mpr rfl
  | (k', v') :: rest => by
      unfold mapInsert
      by_cases h1 : k < k'
      · rw [if_pos h1]
        exact List.mem_cons_self _ _
      · rw [if_neg h1]
        by_cases h2 : k = k'
        · rw [if_pos h2]
          exact List.mem_cons_self _ _
        · rw [if_neg h2]
          exact List.mem_cons_of_mem _ (mapInsert_self_mem k val rest)

theorem mapInsert_key_mono {k : ℚ} {val : DMat} :
    ∀ {m : List (ℚ × DMat)} {t : ℚ} {M : DMat}, (t, M) ∈ m →
      ∃ M', (t, M') ∈ mapInsert m k val
  | [], t, M, h => absurd h (List.not_mem_nil _)
  | (k', v') :: rest, t, M, h => by
      unfold mapInsert
      by_cases h1 : k < k'
      · rw [if_pos h1]
        exact ⟨M, List.mem_cons_of_mem _ h⟩
      · rw [if_neg h1]
        by_cases h2 : k = k'
        · rw [if_pos h2]
          rcases List.mem_cons.mp h with h | h
          · by_cases h3 : t = k
            · exact ⟨val, h3 ▸ List.mem_cons_self _ _⟩
            · exfalso
              simp only [Prod.mk.injEq] at h
              exact h3 (h.1.trans h2.symm)
          · exact ⟨M, List.mem_cons_of_mem _ h⟩
        · rw [if_neg h2]
          rcases List.mem_cons.mp h with h | h
          · exact ⟨M, List.mem_cons.mpr (Or.inl h)⟩
          · obtain ⟨M', hM'⟩ := mapInsert_key_mono h
            exact ⟨M', List.mem_cons_of_mem _ hM'⟩

/-! ### Covariance-loop invariants -/

theorem covarianceLoop_ok_mem (v : List ℚ) (S : DMat) (w nf : List ℚ) (ap : DMat)
    (dt : ℚ) :
    ∀ (fuel : Nat) (ct : ℚ) (hist h : List (ℚ × DMat)),
      covarianceLoop v S w nf ap dt fuel ct hist = .ok h →
      ∀ t M, (t, M) ∈ h → (t, M) ∈ hist ∨
        ∃ idx, idx < v.length ∧ t = v.getD idx 0 ∧ covAtIndex S w nf ap idx = .ok M
  | 0, ct, hist, h, hrun, t, M, hmem => by
      unfold covarianceLoop at hrun
      by_cases hc : ct < v.getD (v.length - 1) 0
      · rw [if_pos hc] at hrun
        exact absurd hrun (by simp)
      · rw [if_neg hc] at hrun
        exact Or.inl ((Except.ok.injEq .. ▸ hrun : hist = h) ▸ hmem)
  | fuel + 1, ct, hist, h, hrun, t, M, hmem => by
      unfold covarianceLoop at hrun
      by_cases hc : ct < v.getD (v.length - 1) 0
      · rw [if_pos hc] at hrun
        simp only [] at hrun
        set idx := tieExtend v (findNearestLowerNeighbour v (ct + dt)) with hidx
        by_cases hguard : v.length ≤ idx
        · rw [if_pos hguard] at hrun
          exact absurd hrun (by simp)
        · rw [if_neg hguard] at hrun
          cases hcov : covAtIndex S w nf ap idx with
          | error e => rw [hcov] at hrun; exact absurd hrun (by simp)
          | ok cov =>
              rw [hcov] at hrun
              rcases covarianceLoop_ok_mem v S w nf ap dt fuel (ct + dt)
                  (mapInsert hist (v.getD idx 0) cov) h hrun t M hmem with hin | hex
              · rcases mem_mapInsert hin with ⟨rfl, rfl⟩ | hin'
                · exact Or.inr ⟨idx, by omega, rfl, hcov⟩
                · exact Or.inl hin'
              · exact Or.inr hex
      · rw [if_neg hc] at hrun
        exact Or.inl ((Except.ok.injEq .. ▸ hrun : hist = h) ▸ hmem)

theorem covarianceLoop_key_mono (v : List ℚ) (S : DMat) (w nf : List ℚ) (ap : DMat)
    (dt : ℚ) :
    ∀ (fuel : Nat) (ct : ℚ) (hist h : List (ℚ × DMat)),
      covarianceLoop v S w nf ap dt fuel ct hist = .ok h →
      ∀ t M, (t, M) ∈ hist → ∃ M', (t, M') ∈ h
  | 0, ct, hist, h, hrun, t, M, hmem => by
      unfold covarianceLoop at hrun
      by_cases hc : ct < v.getD (v.length - 1) 0
      · rw [if_pos hc] at hrun
        exact absurd hrun (by simp)
      · rw [if_neg hc] at hrun
        exact ⟨M, (Except.ok.injEq .. ▸ hrun : hist = h) ▸ hmem⟩
  | fuel + 1, ct, hist, h, hrun, t, M, hmem => by
      unfold covarianceLoop at hrun
      by_cases hc : ct < v.getD (v.length - 1) 0
      · rw [if_pos hc] at hrun
        simp only [] at hrun
        set idx := tieExtend v (findNearestLowerNeighbour v (ct + dt)) with hidx
        by_cases hguard : v.length ≤ idx
        · rw [if_pos hguard] at hrun
          exact absurd hrun (by simp)
        · rw [if_neg hguard] at hrun
          cases hcov : covAtIndex S w nf ap idx with
          | error e => rw [hcov] at hrun; exact absurd hrun (by simp)
          | ok cov =>
              rw [hcov] at hrun
              obtain ⟨M', hM'⟩ := @mapInsert_key_mono (v.getD idx 0) cov _ _ _ hmem
              exact covarianceLoop_key_mono v S w nf ap dt fuel (ct + dt) _ h hrun t M' hM'
      · rw [if_neg hc] at hrun
        exact ⟨M, (Except.ok.injEq .. ▸ hrun : hist = h) ▸ hmem⟩

theorem covarianceLoop_last_mem (v : List ℚ) (S : DMat) (w nf : List ℚ) (ap : DMat)
    (dt : ℚ) (hs : List.Sorted (· ≤ ·) v) :
    ∀ (fuel : Nat) (ct : ℚ) (hist h : List (ℚ × DMat)),
      covarianceLoop v S w nf ap dt fuel ct hist = .ok h →
      ct < v.getD (v.length - 1) 0 →
      ∃ M, (v.getD (v.length - 1) 0, M) ∈ h
  | 0, ct, hist, h, hrun, hct => by
      unfold covarianceLoop at hrun
      rw [if_pos hct] at hrun
      exact absurd hrun (by simp)
  | fuel + 1, ct, hist, h, hrun, hct => by
      unfold covarianceLoop at hrun
      rw [if_pos hct] at hrun
      simp only [] at hrun
      set idx := tieExtend v (findNearestLowerNeighbour v (ct + dt)) with hidx
      by_cases hguard : v.length ≤ idx
      · rw [if_pos hguard] at hrun
        exact absurd hrun (by simp)
      · rw [if_neg hguard] at hrun
        cases hcov : covAtIndex S w nf ap idx with
        | error e => rw [hcov] at hrun; exact absurd hrun (by simp)
        | ok cov =>
            rw [hcov] at hrun
            by_cases hnext : ct + dt < v.getD (v.length - 1) 0
            · exact covarianceLoop_last_mem v S w nf ap dt hs fuel (ct + dt) _ h hrun hnext
            · have hlast : findNearestLowerNeighbour v (ct + dt) = v.length - 1 :=
                fNLN_of_last_le hs (le_of_not_lt hnext)
              have hidx' : idx = v.length - 1 := by rw [hidx, hlast, tieExtend_last]
              have hkey : (v.getD (v.length - 1) 0, cov) ∈
                  mapInsert hist (v.getD idx 0) cov := by
                rw [hidx']
                exact mapInsert_self_mem _ _ _
              exact covarianceLoop_key_mono v S w nf ap dt fuel (ct + dt) _ h hrun _ _ hkey

theorem covarianceLoop_keys_le (v : List ℚ) (S : DMat) (w nf : List ℚ) (ap : DMat)
    (dt : ℚ) (hs : List.Sorted (· ≤ ·) v) :
    ∀ (fuel : Nat) (ct : ℚ) (hist h : List (ℚ × DMat)),
      covarianceLoop v S w nf ap dt fuel ct hist = .ok h →
      (∀ t M, (t, M) ∈ hist → t ≤ v.getD (v.length - 1) 0) →
      ∀ t M, (t, M) ∈ h → t ≤ v.getD (v.length - 1) 0 := by
  intro fuel ct hist h hrun hinv t M hmem
  rcases covarianceLoop_ok_mem v S w nf ap dt fuel ct hist h hrun t M hmem with hin | hex
  · exact hinv t M hin
  · obtain ⟨idx, hlt, rfl, -⟩ := hex
    exact sorted_getD_le_last hs hlt

theorem covAtIndex_error {S : DMat} {w nf : List ℚ} {ap : DMat} {idx : Nat}
    {e : PodError} (h : covAtIndex S w nf ap idx = .error e) :
    e = .singularMatrix := by
  unfold covAtIndex at h
  simp only [] at h
  cases h1 : dmatInv (diagDMat nf) with
  | none =>
      rw [h1] at h
      cases h2 : dmatInv (calculateInverseOfUpdatedCovarianceMatrix
          ⟨idx + 1, S.cols, S.entry⟩ (w.take (idx + 1)) ap) with
      | none => rw [h2] at h; simp only [Except.error.injEq] at h; exact h.symm
      | some c => rw [h2] at h; simp only [Except.error.injEq] at h; exact h.symm
  | some u =>
      rw [h1] at h
      cases h2 : dmatInv (calculateInverseOfUpdatedCovarianceMatrix
          ⟨idx + 1, S.cols, S.entry⟩ (w.take (idx + 1)) ap) with
      | none => rw [h2] at h; simp only [Except.error.injEq] at h; exact h.symm
      | some c => rw [h2] at h; simp at h

theorem covarianceLoop_error_classes (v : List ℚ) (S : DMat) (w nf : List ℚ)
    (ap : DMat) (dt : ℚ) :
    ∀ (fuel : Nat) (ct : ℚ) (hist : List (ℚ × DMat)) (e : PodError),
      covarianceLoop v S w nf ap dt fuel ct hist = .error e →
      e = .outputTimeNotFound ∨ e = .singularMatrix ∨ e = .outOfFuel
  | 0, ct, hist, e, hrun => by
      unfold covarianceLoop at hrun
      by_cases hc : ct < v.getD (v.length - 1) 0
      · rw [if_pos hc] at hrun
        simp only [Except.error.injEq] at hrun
        exact Or.inr (Or.inr hrun.symm)
      · rw [if_neg hc] at hrun
        exact absurd hrun (by simp)
  | fuel + 1, ct, hist, e, hrun => by
      unfold covarianceLoop at hrun
      by_cases hc : ct < v.getD (v.length - 1) 0
      · rw [if_pos hc] at hrun
        simp only [] at hrun
        set idx := tieExtend v (findNearestLowerNeighbour v (ct + dt)) with hidx
        by_cases hguard : v.length ≤ idx
        · rw [if_pos hguard] at hrun
          simp only [Except.error.injEq] at hrun
          exact Or.inl hrun.symm
        · rw [if_neg hguard] at hrun
          cases hcov : covAtIndex S w nf ap idx with
          | error e' =>
              rw [hcov] at hrun
              simp only [Except.error.injEq] at hrun
              exact Or.inr (Or.inl (hrun ▸ covAtIndex_error hcov))
          | ok cov =>
              rw [hcov] at hrun
              exact covarianceLoop_error_classes v S w nf ap dt fuel (ct + dt) _ e hrun
      · rw [if_neg hc] at hrun
        exact absurd hrun (by simp)

theorem covarianceLoop_no_outputTimeNotFound (v : List ℚ) (S : DMat)
    (w nf : List ℚ) (ap : DMat) (dt : ℚ) (hv : v ≠ []) :
    ∀ (fuel : Nat) (ct : ℚ) (hist : List (ℚ × DMat)),
      covarianceLoop v S w nf ap dt fuel ct hist ≠ .error .outputTimeNotFound
  | 0, ct, hist => by
      unfold covarianceLoop
      by_cases hc : ct < v.getD (v.length - 1) 0
      · rw [if_pos hc]; simp
      · rw [if_neg hc]; simp
  | fuel + 1, ct, hist => by
      unfold covarianceLoop
      by_cases hc : ct < v.getD (v.length - 1) 0
      · rw [if_pos hc]
        simp only []
        set idx := tieExtend v (findNearestLowerNeighbour v (ct + dt)) with hidx
        have hlen : 0 < v.length := List.length_pos.mpr hv
        have hidxle : idx ≤ v.length - 1 :=
          tieExtend_le (fNLN_le v (ct + dt))
        have hguard : ¬ v.length ≤ idx := by omega
        rw [if_neg hguard]
        cases hcov : covAtIndex S w nf ap idx with
        | error e' =>
            intro hcontra
            simp only [Except.error.injEq] at hcontra
            have := covAtIndex_error hcov
            rw [hcontra] at this
            exact absurd this (by simp)
        | ok cov =>
            exact covarianceLoop_no_outputTimeNotFound v S w nf ap dt hv fuel (ct + dt) _
      · rw [if_neg hc]; simp

theorem covarianceLoop_terminates (v : List ℚ) (S : DMat) (w nf : List ℚ)
    (ap : DMat) (dt : ℚ) (hdt : 0 < dt) :
    ∀ (fuel : Nat) (ct : ℚ) (hist : List (ℚ × DMat)),
      (v.getD (v.length - 1) 0 - ct) / dt < (fuel : ℚ) →
      covarianceLoop v S w nf ap dt fuel ct hist ≠ .error .outOfFuel
  | 0, ct, hist, hfuel => by
      unfold covarianceLoop
      have hc : ¬ ct < v.getD (v.length - 1) 0 := by
        intro hc
        have h1 : (0 : ℚ) < v.getD (v.length - 1) 0 - ct := by linarith
        have h2 : (0 : ℚ) < (v.getD (v.length - 1) 0 - ct) / dt := div_pos h1 hdt
        rw [Nat.cast_zero] at hfuel
        linarith
      rw [if_neg hc]
      simp
  | fuel + 1, ct, hist, hfuel => by
      unfold covarianceLoop
      by_cases hc : ct < v.getD (v.length - 1) 0
      · rw [if_pos hc]
        simp only []
        set idx := tieExtend v (findNearestLowerNeighbour v (ct + dt)) with hidx
        by_cases hguard : v.length ≤ idx
        · rw [if_pos hguard]; simp
        · rw [if_neg hguard]
          cases hcov : covAtIndex S w nf ap idx with
          | error e' =>
              have := covAtIndex_error hcov
              simp [this]
          | ok cov =>
              have hnext : (v.getD (v.length - 1) 0 - (ct + dt)) / dt < (fuel : ℚ) := by
                rw [div_lt_iff₀ hdt] at hfuel ⊢
                push_cast at hfuel ⊢
                linarith
              exact covarianceLoop_terminates v S w nf ap dt hdt fuel (ct + dt) _ hnext
      · rw [if_neg hc]; simp

theorem covarianceLoop_diverges (v : List ℚ) (S : DMat) (w nf : List ℚ)
    (ap : DMat) (dt : ℚ) (hdt : dt ≤ 0) (hv : v ≠ [])
    (hcov : ∀ i, i < v.length → ∃ M, covAtIndex S w nf ap i = .ok M) :
    ∀ (fuel : Nat) (ct : ℚ) (hist : List (ℚ × DMat)),
      ct < v.getD (v.length - 1) 0 →
      covarianceLoop v S w nf ap dt fuel ct hist = .error .outOfFuel
  | 0, ct, hist, hct => by
      unfold covarianceLoop
      rw [if_pos hct]
  | fuel + 1, ct, hist, hct => by
      unfold covarianceLoop
      rw [if_pos hct]
      simp only []
      set idx := tieExtend v (findNearestLowerNeighbour v (ct + dt)) with hidx
      have hlen : 0 < v.length := List.length_pos.mpr hv
      have hidxle : idx ≤ v.length - 1 :=
        tieExtend_le (fNLN_le v (ct + dt))
      have hguard : ¬ v.length ≤ idx := by omega
      rw [if_neg hguard]
      obtain ⟨M, hM⟩ := hcov idx (by omega)
      rw [hM]
      exact covarianceLoop_diverges v S w nf ap dt hdt hv hcov fuel (ct + dt) _
        (by linarith)

/-! ### Pipeline decomposition lemmas -/

theorem getTimeOrdered_ok_elim {md : PodInputType} {H S : DMat} {v : List ℚ}
    {tOrd : List Nat}
    (h : getTimeOrderedInformationMatrix md H = .ok (S, v, tOrd)) :
    tOrd = (getSortOrderOfVectorAndSortedVector (getConcatenatedTimeVector md)).1 ∧
    v = (getSortOrderOfVectorAndSortedVector (getConcatenatedTimeVector md)).2 ∧
    tOrd.length = H.rows ∧ S.rows = H.rows ∧ S.cols = H.cols ∧
    (∀ i c, i < tOrd.length → S.entry i c = H.entry (tOrd.getD i 0) c) := by
  unfold getTimeOrderedInformationMatrix at h
  simp only [] at h
  by_cases hc : (getSortOrderOfVectorAndSortedVector
      (getConcatenatedTimeVector md)).1.length ≠ H.rows
  · rw [if_pos hc] at h
    exact absurd h (by simp)
  · rw [if_neg hc] at h
    push_neg at hc
    simp only [Except.ok.injEq, Prod.mk.injEq] at h
    obtain ⟨hS, hv, hOrd⟩ := h
    refine ⟨hOrd.symm, hv.symm, hOrd ▸ hc, ?_, ?_, ?_⟩
    · rw [← hS]
      exact (foldl_setRow_rows _ _ _).trans rfl
    · rw [← hS]
      exact (foldl_setRow_cols _ _ _).trans rfl
    · intro i c hi
      rw [← hS, foldl_setRow_range_entry]
      rw [← hOrd] at hi
      rw [if_pos hi, hOrd]

theorem getTimeOrdered_error_iff (md : PodInputType) (H : DMat) :
    getTimeOrderedInformationMatrix md H = .error .sortSizeMismatch ↔
      (getSortOrderOfVectorAndSortedVector
        (getConcatenatedTimeVector md)).1.length ≠ H.rows := by
  unfold getTimeOrderedInformationMatrix
  simp only []
  by_cases hc : (getSortOrderOfVectorAndSortedVector
      (getConcatenatedTimeVector md)).1.length ≠ H.rows
  · rw [if_pos hc]
    simp [hc]
  · rw [if_neg hc]
    simp [hc]

theorem calcCov_eq_loop {md : PodInputType} {H : DMat} {nf : List ℚ} {dt : ℚ}
    {w : List ℚ} {ap : DMat} {fuel : Nat}
    (h1 : ¬ ap.cols ≠ ap.rows) (h2 : ¬ H.cols ≠ ap.cols)
    (h3 : ¬ nf.length ≠ ap.cols) (h4 : ¬ H.rows ≠ w.length)
    {S : DMat} {v : List ℚ} {tOrd : List Nat}
    (h5 : getTimeOrderedInformationMatrix md H = .ok (S, v, tOrd))
    {t0 : ℚ} {rest : List ℚ} (h6 : v = t0 :: rest) :
    calculateCovarianceMatrixAsFunctionOfTime md H nf dt w ap fuel =
      covarianceLoop v S (timeOrderWeights w tOrd) nf ap dt fuel t0 [] := by
  unfold calculateCovarianceMatrixAsFunctionOfTime
  rw [if_neg h1]
  simp only []
  rw [if_neg h2, if_neg h3, if_neg h4, h5]
  simp only []
  rw [h6]

theorem calcCov_ok_elim {md : PodInputType} {H : DMat} {nf : List ℚ} {dt : ℚ}
    {w : List ℚ} {ap : DMat} {fuel : Nat} {hist : List (ℚ × DMat)}
    (hrun : calculateCovarianceMatrixAsFunctionOfTime md H nf dt w ap fuel =
      .ok hist) :
    ap.cols = ap.rows ∧ H.cols = ap.cols ∧ nf.length = ap.cols ∧
    H.rows = w.length ∧
    ∃ S v tOrd t0 rest, getTimeOrderedInformationMatrix md H = .ok (S, v, tOrd) ∧
      v = t0 :: rest ∧
      covarianceLoop v S (timeOrderWeights w tOrd) nf ap dt fuel t0 [] =
        .ok hist := by
  unfold calculateCovarianceMatrixAsFunctionOfTime at hrun
  by_cases hc1 : ap.cols ≠ ap.rows
  · rw [if_pos hc1] at hrun
    exact absurd hrun (by simp)
  · rw [if_neg hc1] at hrun
    simp only [] at hrun
    by_cases hc2 : H.cols ≠ ap.cols
    · rw [if_pos hc2] at hrun
      exact absurd hrun (by simp)
    · rw [if_neg hc2] at hrun
      by_cases hc3 : nf.length ≠ ap.cols
      · rw [if_pos hc3] at hrun
        exact absurd hrun (by simp)
      · rw [if_neg hc3] at hrun
        by_cases hc4 : H.rows ≠ w.length
        · rw [if_pos hc4] at hrun
          exact absurd hrun (by simp)
        · rw [if_neg hc4] at hrun
          push_neg at hc1 hc2 hc3 hc4
          refine ⟨hc1, hc2, hc3, hc4, ?_⟩
          cases hto : getTimeOrderedInformationMatrix md H with
          | error e =>
              rw [hto] at hrun
              exact absurd hrun (by simp)
          | ok x =>
              obtain ⟨S, v, tOrd⟩ := x
              rw [hto] at hrun
              cases hv : v with
              | nil =>
                  rw [hv] at hrun
                  exact absurd hrun (by simp)
              | cons t0 rest =>
                  subst hv
                  exact ⟨S, t0 :: rest, tOrd, t0, rest, rfl, rfl, hrun⟩

/-! ### Further elimination lemmas -/

theorem getTimeOrdered_error_elim {md : PodInputType} {H : DMat} {e : PodError}
    (h : getTimeOrderedInformationMatrix md H = .error e) :
    e = .sortSizeMismatch := by
  unfold getTimeOrderedInformationMatrix at h
  simp only [] at h
  by_cases hc : (getSortOrderOfVectorAndSortedVector
      (getConcatenatedTimeVector md)).1.length ≠ H.rows
  · rw [if_pos hc] at h
    simp only [Except.error.injEq] at h
    exact h.symm
  · rw [if_neg hc] at h
    exact absurd h (by simp)

theorem covAtIndex_ok_elim {S : DMat} {w nf : List ℚ} {ap : DMat} {idx : Nat}
    {M : DMat} (h : covAtIndex S w nf ap idx = .ok M) :
    ∃ unnormInv covNormalized,
      dmatInv (diagDMat nf) = some unnormInv ∧
      dmatInv (calculateInverseOfUpdatedCovarianceMatrix
        ⟨idx + 1, S.cols, S.entry⟩ (w.take (idx + 1)) ap) = some covNormalized ∧
      M = (unnormInv.mul covNormalized).mul unnormInv := by
  unfold covAtIndex at h
  simp only [] at h
  cases h1 : dmatInv (diagDMat nf) with
  | none =>
      rw [h1] at h
      cases h2 : dmatInv (calculateInverseOfUpdatedCovarianceMatrix
          ⟨idx + 1, S.cols, S.entry⟩ (w.take (idx + 1)) ap) with
      | none => rw [h2] at h; exact absurd h (by simp)
      | some c => rw [h2] at h; exact absurd h (by simp)
  | some u =>
      rw [h1] at h
      cases h2 : dmatInv (calculateInverseOfUpdatedCovarianceMatrix
          ⟨idx + 1, S.cols, S.entry⟩ (w.take (idx + 1)) ap) with
      | none => rw [h2] at h; exact absurd h (by simp)
      | some c =>
          rw [h2] at h
          simp only [Except.ok.injEq] at h
          exact ⟨u, c, rfl, rfl, h.symm⟩

theorem covAtIndex_sing {S : DMat} {w nf : List ℚ} {ap : DMat} {idx : Nat}
    (h : dmatInv (calculateInverseOfUpdatedCovarianceMatrix
      ⟨idx + 1, S.cols, S.entry⟩ (w.take (idx + 1)) ap) = none) :
    covAtIndex S w nf ap idx = .error .singularMatrix := by
  unfold covAtIndex
  simp only []
  cases h1 : dmatInv (diagDMat nf) with
  | none => rw [h]
  | some u => rw [h]

theorem calcCov_post_check_errors {md : PodInputType} {H : DMat} {nf : List ℚ}
    {dt : ℚ} {w : List ℚ} {ap : DMat} {fuel : Nat} {e : PodError}
    (h1 : ¬ ap.cols ≠ ap.rows) (h2 : ¬ H.cols ≠ ap.cols)
    (h3 : ¬ nf.length ≠ ap.cols) (h4 : ¬ H.rows ≠ w.length)
    (h : calculateCovarianceMatrixAsFunctionOfTime md H nf dt w ap fuel =
      .error e) :
    e = .sortSizeMismatch ∨ e = .indexOutOfBounds ∨ e = .singularMatrix ∨
      e = .outOfFuel := by
  unfold calculateCovarianceMatrixAsFunctionOfTime at h
  rw [if_neg h1] at h
  simp only [] at h
  rw [if_neg h2, if_neg h3, if_neg h4] at h
  cases hto : getTimeOrderedInformationMatrix md H with
  | error e' =>
      rw [hto] at h
      simp only [Except.error.injEq] at h
      exact Or.inl (h ▸ getTimeOrdered_error_elim hto)
  | ok x =>
      obtain ⟨S, v, tOrd⟩ := x
      rw [hto] at h
      cases hv : v with
      | nil =>
          rw [hv] at h
          simp only [Except.error.injEq] at h
          exact Or.inr (Or.inl h.symm)
      | cons t0 rest =>
          rw [hv] at h
          rcases covarianceLoop_error_classes _ _ _ _ _ _ _ _ _ _ h with
            hc | hc | hc
          · exact absurd (hc ▸ h) (covarianceLoop_no_outputTimeNotFound _ _ _ _ _ _
              (by simp) _ _ _)
          · exact Or.inr (Or.inr (Or.inl hc))
          · exact Or.inr (Or.inr (Or.inr hc))

/-! ### Concatenated-time-vector shape lemmas -/

theorem concatTimes_entry (e : ObservableEntry) :
    ∀ (acc : List ℚ),
      e.linkData.foldl
        (fun acc2 dataEntry =>
          if e.observableSize = 1 then
            acc2 ++ dataEntry.times
          else
            acc2 ++ dataEntry.times.foldl
              (fun cur t => cur ++ List.replicate e.observableSize t) []) acc =
      acc ++ (e.linkData.map (fun d =>
        (d.times.map (fun t => List.replicate e.observableSize t)).flatten)).flatten := by
  intro acc
  by_cases hs : e.observableSize = 1
  · simp only [if_pos hs]
    rw [foldl_append_eq (fun d : SingleLinkObservations => d.times) e.linkData acc]
    congr 1
    apply congrArg
    apply List.map_congr_left
    intro d _
    rw [hs, flatten_map_replicate_one]
  · simp only [if_neg hs]
    have hinner : ∀ d : SingleLinkObservations,
        d.times.foldl (fun cur t => cur ++ List.replicate e.observableSize t) [] =
          (d.times.map (fun t => List.replicate e.observableSize t)).flatten := by
      intro d
      rw [foldl_append_eq (fun t => List.replicate e.observableSize t) d.times []]
      simp
    calc e.linkData.foldl (fun acc2 d => acc2 ++ d.times.foldl
          (fun cur t => cur ++ List.replicate e.observableSize t) []) acc
        = acc ++ (e.linkData.map (fun d => d.times.foldl
            (fun cur t => cur ++ List.replicate e.observableSize t) [])).flatten :=
          foldl_append_eq _ e.linkData acc
      _ = _ := by
          congr 1
          apply congrArg
          apply List.map_congr_left
          intro d _
          exact hinner d

theorem concatTimes_flatten : ∀ (md : PodInputType) (acc : List ℚ),
    md.foldl
      (fun acc observablesEntry =>
        observablesEntry.linkData.foldl
          (fun acc2 dataEntry =>
            if observablesEntry.observableSize = 1 then
              acc2 ++ dataEntry.times
            else
              acc2 ++ dataEntry.times.foldl
                (fun cur t => cur ++ List.replicate observablesEntry.observableSize t) [])
          acc)
      acc =
    acc ++ (md.map (fun e => (e.linkData.map (fun d =>
      (d.times.map (fun t => List.replicate e.observableSize t)).flatten)).flatten)).flatten
  | [], acc => by simp
  | e :: md, acc => by
      rw [List.foldl_cons, concatTimes_flatten md _, concatTimes_entry e acc]
      simp [List.append_assoc]

theorem sum_map_mul_const {α : Type} : ∀ (l : List α) (c : Nat),
    (l.map (fun _ => c)).sum = l.length * c
  | [], c => by simp
  | x :: l, c => by
      simp [sum_map_mul_const l c, Nat.succ_mul, Nat.add_comm]

/-! ### Claim theorems -/

/-- C6: for every observation map, `getConcatenatedTimeVector` copies sample
times verbatim for dimension-1 observables and repeats each sample's time
exactly `d` times contiguously for a dimension-`d` observable (the flattened
replicate form below specializes to a verbatim copy when the dimension is 1),
and the total length is the sum over all entries of sample count times
observable dimension. -/
theorem c6_concatenated_time_vector (md : PodInputType) :
    getConcatenatedTimeVector md =
      (md.map (fun e => (e.linkData.map (fun d =>
        (d.times.map (fun t => List.replicate e.observableSize t)).flatten)).flatten)).flatten ∧
    (getConcatenatedTimeVector md).length =
      (md.map (fun e => (e.linkData.map (fun d =>
        d.times.length * e.observableSize)).sum)).sum := by
  have h1 : getConcatenatedTimeVector md =
      (md.map (fun e => (e.linkData.map (fun d =>
        (d.times.map (fun t => List.replicate e.observableSize t)).flatten)).flatten)).flatten := by
    unfold getConcatenatedTimeVector
    rw [concatTimes_flatten md []]
    rfl
  refine ⟨h1, ?_⟩
  rw [h1, List.length_flatten, List.map_map]
  apply congrArg
  apply List.map_congr_left
  intro e _
  simp only [Function.comp]
  rw [List.length_flatten, List.map_map]
  apply congrArg
  apply List.map_congr_left
  intro d _
  simp only [Function.comp]
  rw [List.length_flatten, List.map_map]
  simp only [Function.comp_def, List.length_replicate]
  exact sum_map_mul_const d.times e.observableSize

/-- C7: when the information matrix's row count equals the concatenated time
vector's length, `getTimeOrderedInformationMatrix` succeeds, row `i` of the
returned matrix is row `timeOrder[i]` of the input for every `i`, and the
returned time sequence is non-decreasing; it fails with the size-mismatch error
exactly when the sort permutation's length differs from the information
matrix's row count. -/
theorem c7_time_ordered_information_matrix :
    (∀ (md : PodInputType) (H : DMat),
        (getConcatenatedTimeVector md).length = H.rows →
        ∃ S v tOrd, getTimeOrderedInformationMatrix md H = .ok (S, v, tOrd) ∧
          (∀ i c, i < tOrd.length → S.entry i c = H.entry (tOrd.getD i 0) c) ∧
          List.Sorted (· ≤ ·) v) ∧
    (∀ (md : PodInputType) (H : DMat),
        getTimeOrderedInformationMatrix md H = .error .sortSizeMismatch ↔
          (getSortOrderOfVectorAndSortedVector
            (getConcatenatedTimeVector md)).1.length ≠ H.rows) := by
  constructor
  · intro md H hlen
    have hcond : ¬ (getSortOrderOfVectorAndSortedVector
        (getConcatenatedTimeVector md)).1.length ≠ H.rows := by
      rw [sortOrder_length]
      omega
    have hok : ∃ S v tOrd,
        getTimeOrderedInformationMatrix md H = .ok (S, v, tOrd) := by
      unfold getTimeOrderedInformationMatrix
      simp only []
      rw [if_neg hcond]
      exact ⟨_, _, _, rfl⟩
    obtain ⟨S, v, tOrd, hok⟩ := hok
    obtain ⟨hOrd, hv, hlen', hrows, hcols, hentry⟩ := getTimeOrdered_ok_elim hok
    exact ⟨S, v, tOrd, hok, hentry, hv.symm ▸ sortedVec_sorted _⟩
  · exact getTimeOrdered_error_iff

/-- C8: when the concatenated observation set is empty while the eager shape
checks pass (a zero-row information matrix with a matching weight diagonal),
`calculateCovarianceMatrixAsFunctionOfTime` performs the out-of-bounds read
`orderedTimeVector[ 0 ]`, modelled as the `indexOutOfBounds` error: a non-empty
observation set is an unstated precondition. -/
theorem c8_empty_observations_oob (md : PodInputType) (H : DMat) (nf : List ℚ)
    (dt : ℚ) (w : List ℚ) (ap : DMat) (fuel : Nat)
    (hempty : getConcatenatedTimeVector md = [])
    (h1 : ¬ ap.cols ≠ ap.rows) (h2 : ¬ H.cols ≠ ap.cols)
    (h3 : ¬ nf.length ≠ ap.cols) (h4 : ¬ H.rows ≠ w.length)
    (hrows : H.rows = 0) :
    calculateCovarianceMatrixAsFunctionOfTime md H nf dt w ap fuel =
      .error .indexOutOfBounds := by
  have hsort : getSortOrderOfVectorAndSortedVector (getConcatenatedTimeVector md) =
      ([], []) := by
    rw [hempty]
    rfl
  unfold calculateCovarianceMatrixAsFunctionOfTime
  rw [if_neg h1]
  simp only []
  rw [if_neg h2, if_neg h3, if_neg h4]
  have hto : getTimeOrderedInformationMatrix md H =
      .ok (zeroDMat H.rows H.cols, [], []) := by
    unfold getTimeOrderedInformationMatrix
    simp only [hsort]
    rw [if_neg (by rw [List.length_nil, hrows]; simp : ¬ ([] : List Nat).length ≠ H.rows)]
    rfl
  rw [hto]

/-- C10: the tie-extension step keeps the current index at most `N - 1`, so
the subsequent `output time not found` error branch of
`calculateCovarianceMatrixAsFunctionOfTime` is unreachable for every input. -/
theorem c10_tie_extension_bound :
    (∀ (v : List ℚ) (t : ℚ), List.Sorted (· ≤ ·) v →
        tieExtend v (findNearestLowerNeighbour v t) ≤ v.length - 1) ∧
    (∀ (md : PodInputType) (H : DMat) (nf : List ℚ) (dt : ℚ) (w : List ℚ)
        (ap : DMat) (fuel : Nat),
        calculateCovarianceMatrixAsFunctionOfTime md H nf dt w ap fuel ≠
          .error .outputTimeNotFound) := by
  constructor
  · intro v t _
    exact tieExtend_le (fNLN_le v t)
  · intro md H nf dt w ap fuel hcontra
    by_cases h1 : ap.cols ≠ ap.rows
    · unfold calculateCovarianceMatrixAsFunctionOfTime at hcontra
      rw [if_pos h1] at hcontra
      simp at hcontra
    · by_cases h2 : H.cols ≠ ap.cols
      · unfold calculateCovarianceMatrixAsFunctionOfTime at hcontra
        rw [if_neg h1] at hcontra
        simp only [] at hcontra
        rw [if_pos h2] at hcontra
        simp at hcontra
      · by_cases h3 : nf.length ≠ ap.cols
        · unfold calculateCovarianceMatrixAsFunctionOfTime at hcontra
          rw [if_neg h1] at hcontra
          simp only [] at hcontra
          rw [if_neg h2, if_pos h3] at hcontra
          simp at hcontra
        · by_cases h4 : H.rows ≠ w.length
          · unfold calculateCovarianceMatrixAsFunctionOfTime at hcontra
            rw [if_neg h1] at hcontra
            simp only [] at hcontra
            rw [if_neg h2, if_neg h3, if_pos h4] at hcontra
            simp at hcontra
          · rcases calcCov_post_check_errors h1 h2 h3 h4 hcontra with h | h | h | h <;>
              simp at h

/-- Witness for C7 at a concrete two-observation input. -/
theorem c7_time_ordered_information_matrix_witness :
    (getConcatenatedTimeVector (mdTimes [1, 0])).length =
      (dmatOfLists [[2], [3]] 1).rows ∧
    (∃ S v tOrd, getTimeOrderedInformationMatrix (mdTimes [1, 0])
        (dmatOfLists [[2], [3]] 1) = .ok (S, v, tOrd) ∧
      (∀ i c, i < tOrd.length →
        S.entry i c = (dmatOfLists [[2], [3]] 1).entry (tOrd.getD i 0) c) ∧
      List.Sorted (· ≤ ·) v) :=
  ⟨by decide, c7_time_ordered_information_matrix.1 (mdTimes [1, 0])
    (dmatOfLists [[2], [3]] 1) (by decide)⟩

/-- Witness for C8 at a concrete empty observation set. -/
theorem c8_empty_observations_oob_witness :
    calculateCovarianceMatrixAsFunctionOfTime [] (dmatOfLists [] 1) [1] 1 []
      (idMat 1) 5 = .error .indexOutOfBounds :=
  c8_empty_observations_oob [] (dmatOfLists [] 1) [1] 1 [] (idMat 1) 5 rfl
    (by decide) (by decide) (by decide) (by decide) rfl

/-- Witness for C10 at a concrete sorted time vector and concrete pipeline
input. -/
theorem c10_tie_extension_bound_witness :
    tieExtend [0, 0, 3] (findNearestLowerNeighbour [0, 0, 3] 1) ≤ 2 ∧
    calculateCovarianceMatrixAsFunctionOfTime (mdTimes [0, 1])
      (dmatOfLists [[1], [1]] 1) [1] 1 [1, 1] (idMat 1) 5 ≠
        .error .outputTimeNotFound :=
  ⟨c10_tie_extension_bound.1 [0, 0, 3] 1 (by decide),
    c10_tie_extension_bound.2 (mdTimes [0, 1]) (dmatOfLists [[1], [1]] 1)
      [1] 1 [1, 1] (idMat 1) 5⟩

/-- C5: the pipeline raises one of the four eager shape errors, before any of
the numeric work that follows the checks in the source, exactly when one of
the four shape conditions fails: the a-priori inverse covariance is not
square, the information matrix's column count differs from the parameter
count, the normalization vector's length differs from the parameter count, or
the weight diagonal's length differs from the information matrix's row count. -/
theorem c5_shape_checks_iff (md : PodInputType) (H : DMat) (nf : List ℚ)
    (dt : ℚ) (w : List ℚ) (ap : DMat) (fuel : Nat) :
    (∃ e, calculateCovarianceMatrixAsFunctionOfTime md H nf dt w ap fuel =
        .error e ∧ e.isShape = true) ↔
      (ap.cols ≠ ap.rows ∨ H.cols ≠ ap.cols ∨ nf.length ≠ ap.cols ∨
        H.rows ≠ w.length) := by
  constructor
  · rintro ⟨e, he, hshape⟩
    by_contra hnot
    push_neg at hnot
    obtain ⟨hc1, hc2, hc3, hc4⟩ := hnot
    rcases calcCov_post_check_errors (by omega) (by omega) (by omega) (by omega)
        he with h | h | h | h <;>
      · rw [h] at hshape
        simp [PodError.isShape] at hshape
  · intro hfail
    by_cases h1 : ap.cols ≠ ap.rows
    · refine ⟨.aprioriNotSquare, ?_, rfl⟩
      unfold calculateCovarianceMatrixAsFunctionOfTime
      rw [if_pos h1]
    · by_cases h2 : H.cols ≠ ap.cols
      · refine ⟨.paramInfoMismatch, ?_, rfl⟩
        unfold calculateCovarianceMatrixAsFunctionOfTime
        rw [if_neg h1]
        simp only []
        rw [if_pos h2]
      · by_cases h3 : nf.length ≠ ap.cols
        · refine ⟨.paramNormMismatch, ?_, rfl⟩
          unfold calculateCovarianceMatrixAsFunctionOfTime
          rw [if_neg h1]
          simp only []
          rw [if_neg h2, if_pos h3]
        · by_cases h4 : H.rows ≠ w.length
          · refine ⟨.weightsMismatch, ?_, rfl⟩
            unfold calculateCovarianceMatrixAsFunctionOfTime
            rw [if_neg h1]
            simp only []
            rw [if_neg h2, if_neg h3, if_pos h4]
          · exfalso
            rcases hfail with h | h | h | h
            · exact h1 h
            · exact h2 h
            · exact h3 h
            · exact h4 h

/-- C3: the tie-extension never stops inside a run of equal consecutive sorted
timestamps (the emitted index is the last row or is followed by a strictly
different time), and on the concrete scenario of four dimension-1 observations
at times 0, 1, 1, 3 with unit weights, a 2-parameter problem and output step 2
the map has exactly the two keys 1 and 3, the entry at key 1 being the
covariance of the three-observation set containing both time-1 observations
and the entry at key 3 that of all four observations. -/
theorem c3_tied_cluster_scenario :
    (∀ (v : List ℚ) (i : Nat), i < v.length →
        tieExtend v i = v.length - 1 ∨
          v.getD (tieExtend v i) 0 ≠ v.getD (tieExtend v i + 1) 0) ∧
    (histKeys (calculateCovarianceMatrixAsFunctionOfTime (mdTimes [0, 1, 1, 3])
        (dmatOfLists [[1, 0], [0, 1], [1, 1], [1, 2]] 2) [1, 1] 2 [1, 1, 1, 1]
        (idMat 2) 5) = some [1, 3] ∧
      optIsExt (histVal (calculateCovarianceMatrixAsFunctionOfTime
          (mdTimes [0, 1, 1, 3]) (dmatOfLists [[1, 0], [0, 1], [1, 1], [1, 2]] 2)
          [1, 1] 2 [1, 1, 1, 1] (idMat 2) 5) 1)
        (dmatOfLists [[3/8, -1/8], [-1/8, 3/8]] 2) ∧
      optIsExt (histVal (calculateCovarianceMatrixAsFunctionOfTime
          (mdTimes [0, 1, 1, 3]) (dmatOfLists [[1, 0], [0, 1], [1, 1], [1, 2]] 2)
          [1, 1] 2 [1, 1, 1, 1] (idMat 2) 5) 3)
        (dmatOfLists [[7/19, -3/19], [-3/19, 4/19]] 2) ∧
      optIsExt (dmatInv (calculateInverseOfUpdatedCovarianceMatrix
          (dmatOfLists [[1, 0], [0, 1], [1, 1]] 2) [1, 1, 1] (idMat 2)))
        (dmatOfLists [[3/8, -1/8], [-1/8, 3/8]] 2) ∧
      optIsExt (dmatInv (calculateInverseOfUpdatedCovarianceMatrix
          (dmatOfLists [[1, 0], [0, 1], [1, 1], [1, 2]] 2) [1, 1, 1, 1] (idMat 2)))
        (dmatOfLists [[7/19, -3/19], [-3/19, 4/19]] 2)) := by
  constructor
  · intro v i h
    exact tieExtend_no_split h
  · exact ⟨by decide, by decide, by decide, by decide, by decide⟩

/-- Witness for C3's tie-extension conjunct at a concrete index inside the tied
pair, restating one concrete fact of the scenario. -/
theorem c3_tied_cluster_scenario_witness :
    ((1 : Nat) < ([0, 1, 1, 3] : List ℚ).length) ∧
    (tieExtend [0, 1, 1, 3] 1 = 3 ∨
      ([0, 1, 1, 3] : List ℚ).getD (tieExtend [0, 1, 1, 3] 1) 0 ≠
        ([0, 1, 1, 3] : List ℚ).getD (tieExtend [0, 1, 1, 3] 1 + 1) 0) :=
  ⟨by decide, c3_tied_cluster_scenario.1 [0, 1, 1, 3] 1 (by decide)⟩

/-- Counterexample to C1 as stated: with normalization factor 2, one parameter,
observations at times 0 and 1, unit weights and identity a-priori inverse, the
normalized covariance (the inverse of the updated sum) is [[1/3]], the stored
covariance is [[1/12]] = D⁻¹ · C · D⁻¹, and it differs from
D · C · D = [[4/3]] for D the diagonal of the normalization factors. -/
theorem c1_unnormalization_counterexample :
    optIsExt (dmatInv (calculateInverseOfUpdatedCovarianceMatrix
        (dmatOfLists [[1], [1]] 1) [1, 1] (idMat 1)))
      (dmatOfLists [[1/3]] 1) ∧
    optIsExt (histVal (calculateCovarianceMatrixAsFunctionOfTime (mdTimes [0, 1])
        (dmatOfLists [[1], [1]] 1) [2] 1 [1, 1] (idMat 1) 5) 1)
      (dmatOfLists [[1/12]] 1) ∧
    ¬ optIsExt (histVal (calculateCovarianceMatrixAsFunctionOfTime (mdTimes [0, 1])
        (dmatOfLists [[1], [1]] 1) [2] 1 [1, 1] (idMat 1) 5) 1)
      ((diagDMat [2]).mul ((dmatOfLists [[1/3]] 1).mul (diagDMat [2]))) :=
  ⟨by decide, by decide, by decide⟩

/-- C1 as amended: every covariance stored by
`calculateCovarianceMatrixAsFunctionOfTime` equals D⁻¹ · C · D⁻¹ (not
D · C · D), where C is the inverse of the updated normalized covariance sum
over the observation set ending at the entry's epoch and D⁻¹ is the modelled
inverse of the diagonal matrix of the normalization factors. -/
theorem c1_unnormalization_amended {md : PodInputType} {H : DMat} {nf : List ℚ}
    {dt : ℚ} {w : List ℚ} {ap : DMat} {fuel : Nat} {hist : List (ℚ × DMat)}
    (hrun : calculateCovarianceMatrixAsFunctionOfTime md H nf dt w ap fuel =
      .ok hist) :
    ∀ t M, (t, M) ∈ hist →
      ∃ S v tOrd idx, getTimeOrderedInformationMatrix md H = .ok (S, v, tOrd) ∧
        idx < v.length ∧ t = v.getD idx 0 ∧
        ∃ unnormInv covNormalized,
          dmatInv (diagDMat nf) = some unnormInv ∧
          dmatInv (calculateInverseOfUpdatedCovarianceMatrix
            ⟨idx + 1, S.cols, S.entry⟩
            ((timeOrderWeights w tOrd).take (idx + 1)) ap) = some covNormalized ∧
          M = (unnormInv.mul covNormalized).mul unnormInv := by
  intro t M hmem
  obtain ⟨-, -, -, -, S, v, tOrd, t0, rest, hto, hv, hloop⟩ := calcCov_ok_elim hrun
  rcases covarianceLoop_ok_mem v S (timeOrderWeights w tOrd) nf ap dt fuel t0 []
      hist hloop t M hmem with hin | hex
  · exact absurd hin (List.not_mem_nil _)
  · obtain ⟨idx, hlt, ht, hcov⟩ := hex
    obtain ⟨u, c, hu, hc, hM⟩ := covAtIndex_ok_elim hcov
    exact ⟨S, v, tOrd, idx, hto, hlt, ht, u, c, hu, hc, hM⟩

/-- Witness for C1's amended claim at the concrete counterexample input. -/
theorem c1_unnormalization_amended_witness :
    calculateCovarianceMatrixAsFunctionOfTime (mdTimes [0, 1])
      (dmatOfLists [[1], [1]] 1) [2] 1 [1, 1] (idMat 1) 5 = .ok c1hist ∧
    (1, c1val) ∈ c1hist ∧
    (∃ S v tOrd idx, getTimeOrderedInformationMatrix (mdTimes [0, 1])
        (dmatOfLists [[1], [1]] 1) = .ok (S, v, tOrd) ∧
      idx < v.length ∧ (1 : ℚ) = v.getD idx 0 ∧
      ∃ unnormInv covNormalized,
        dmatInv (diagDMat [2]) = some unnormInv ∧
        dmatInv (calculateInverseOfUpdatedCovarianceMatrix
          ⟨idx + 1, S.cols, S.entry⟩
          ((timeOrderWeights [1, 1] tOrd).take (idx + 1)) (idMat 1)) =
            some covNormalized ∧
        c1val = (unnormInv.mul covNormalized).mul unnormInv) := by
  have hrun : calculateCovarianceMatrixAsFunctionOfTime (mdTimes [0, 1])
      (dmatOfLists [[1], [1]] 1) [2] 1 [1, 1] (idMat 1) 5 = .ok c1hist := rfl
  have hmem : (1, c1val) ∈ c1hist := List.mem_singleton.mpr rfl
  exact ⟨hrun, hmem, c1_unnormalization_amended hrun 1 c1val hmem⟩

/-- Counterexample to C2 as stated: with observations at times 0 and 3 and
output step 2 (which does not evenly divide the span 3), the history does
contain an entry keyed by the earliest observation time 0, and its largest key
equals the last observation time 3. -/
theorem c2_history_keys_counterexample :
    (getSortOrderOfVectorAndSortedVector
      (getConcatenatedTimeVector (mdTimes [0, 3]))).2 = [0, 3] ∧
    histKeys (calculateCovarianceMatrixAsFunctionOfTime (mdTimes [0, 3])
      (dmatOfLists [[1], [1]] 1) [1] 2 [1, 1] (idMat 1) 5) = some [0, 3] ∧
    (((3 : ℚ) - 0) / 2).den ≠ 1 :=
  ⟨by decide, by decide, by decide⟩

/-- C2 as amended: the history can contain an entry keyed by the earliest
observation time (as the counterexample shows), and whenever the earliest
ordered observation time is strictly below the last one, the largest key of a
successfully computed history always equals the last observation time,
whether or not the output step divides the span. -/
theorem c2_history_keys_amended {md : PodInputType} {H : DMat} {nf : List ℚ}
    {dt : ℚ} {w : List ℚ} {ap : DMat} {fuel : Nat} {hist : List (ℚ × DMat)}
    (hrun : calculateCovarianceMatrixAsFunctionOfTime md H nf dt w ap fuel =
      .ok hist)
    {S : DMat} {v : List ℚ} {tOrd : List Nat}
    (hto : getTimeOrderedInformationMatrix md H = .ok (S, v, tOrd))
    (hspan : v.getD 0 0 < v.getD (v.length - 1) 0) :
    (∃ M, (v.getD (v.length - 1) 0, M) ∈ hist) ∧
    (∀ t M, (t, M) ∈ hist → t ≤ v.getD (v.length - 1) 0) := by
  obtain ⟨-, -, -, -, S', v', tOrd', t0, rest, hto', hv', hloop⟩ := calcCov_ok_elim hrun
  have htrip : S = S' ∧ v = v' ∧ tOrd = tOrd' := by
    have h := hto.symm.trans hto'
    simp only [Except.ok.injEq, Prod.mk.injEq] at h
    exact ⟨h.1, h.2.1, h.2.2⟩
  obtain ⟨rfl, rfl, rfl⟩ := htrip
  have hsorted : List.Sorted (· ≤ ·) v :=
    (getTimeOrdered_ok_elim hto).2.1.symm ▸ sortedVec_sorted _
  have ht0 : v.getD 0 0 = t0 := by rw [hv']; rfl
  constructor
  · exact covarianceLoop_last_mem v S (timeOrderWeights w tOrd) nf ap dt hsorted
      fuel t0 [] hist hloop (ht0 ▸ hspan)
  · exact covarianceLoop_keys_le v S (timeOrderWeights w tOrd) nf ap dt hsorted
      fuel t0 [] hist hloop
      (fun t M h => absurd h (List.not_mem_nil _))

/-- Witness for C2's amended claim at the concrete counterexample input. -/
theorem c2_history_keys_amended_witness :
    calculateCovarianceMatrixAsFunctionOfTime (mdTimes [0, 3])
      (dmatOfLists [[1], [1]] 1) [1] 2 [1, 1] (idMat 1) 5 =
        .ok ((calculateCovarianceMatrixAsFunctionOfTime (mdTimes [0, 3])
          (dmatOfLists [[1], [1]] 1) [1] 2 [1, 1] (idMat 1) 5).toOption.getD []) ∧
    c2Triple.2.1.getD 0 0 < c2Triple.2.1.getD (c2Triple.2.1.length - 1) 0 ∧
    ((∃ M, (c2Triple.2.1.getD (c2Triple.2.1.length - 1) 0, M) ∈
        ((calculateCovarianceMatrixAsFunctionOfTime (mdTimes [0, 3])
          (dmatOfLists [[1], [1]] 1) [1] 2 [1, 1] (idMat 1) 5).toOption.getD [])) ∧
      (∀ t M, (t, M) ∈ ((calculateCovarianceMatrixAsFunctionOfTime (mdTimes [0, 3])
          (dmatOfLists [[1], [1]] 1) [1] 2 [1, 1] (idMat 1) 5).toOption.getD []) →
        t ≤ c2Triple.2.1.getD (c2Triple.2.1.length - 1) 0)) := by
  have hrun : calculateCovarianceMatrixAsFunctionOfTime (mdTimes [0, 3])
      (dmatOfLists [[1], [1]] 1) [1] 2 [1, 1] (idMat 1) 5 =
        .ok ((calculateCovarianceMatrixAsFunctionOfTime (mdTimes [0, 3])
          (dmatOfLists [[1], [1]] 1) [1] 2 [1, 1] (idMat 1) 5).toOption.getD []) := rfl
  have hto : getTimeOrderedInformationMatrix (mdTimes [0, 3])
      (dmatOfLists [[1], [1]] 1) = .ok (c2Triple.1, c2Triple.2.1, c2Triple.2.2) := rfl
  have hspan : c2Triple.2.1.getD 0 0 <
      c2Triple.2.1.getD (c2Triple.2.1.length - 1) 0 := by decide
  exact ⟨hrun, hspan, c2_history_keys_amended hrun hto hspan⟩

/-- Auxiliary step-indexed propagation lemma for the output-time loop: if the
first `k` iterations all run and succeed while iteration `k + 1` starts and its
covariance computation fails with the singular-matrix error, the loop returns
that error. -/
theorem covarianceLoop_sing_step (v : List ℚ) (S : DMat) (w nf : List ℚ)
    (ap : DMat) (dt : ℚ) (hv : v ≠ []) :
    ∀ (k fuel : Nat) (ct : ℚ) (hist : List (ℚ × DMat)),
      (∀ j : Nat, j < k → ct + (j : ℚ) * dt < v.getD (v.length - 1) 0 ∧
        ∃ M, covAtIndex S w nf ap
          (tieExtend v (findNearestLowerNeighbour v (ct + ((j : ℚ) + 1) * dt))) =
            .ok M) →
      ct + (k : ℚ) * dt < v.getD (v.length - 1) 0 →
      covAtIndex S w nf ap
        (tieExtend v (findNearestLowerNeighbour v (ct + ((k : ℚ) + 1) * dt))) =
          .error .singularMatrix →
      k + 1 ≤ fuel →
      covarianceLoop v S w nf ap dt fuel ct hist = .error .singularMatrix
  | 0, fuel, ct, hist, hprev, hk, hsing, hfuel => by
      obtain ⟨f, rfl⟩ : ∃ f, fuel = f + 1 := ⟨fuel - 1, by omega⟩
      have hct : ct < v.getD (v.length - 1) 0 := by
        rw [Nat.cast_zero, zero_mul, add_zero] at hk
        exact hk
      have harg : ct + (((0 : Nat) : ℚ) + 1) * dt = ct + dt := by push_cast; ring
      rw [harg] at hsing
      unfold covarianceLoop
      rw [if_pos hct]
      simp only []
      have hlen : 0 < v.length := List.length_pos.mpr hv
      have hidxle : tieExtend v (findNearestLowerNeighbour v (ct + dt)) ≤
          v.length - 1 := tieExtend_le (fNLN_le v (ct + dt))
      rw [if_neg (by omega :
        ¬ v.length ≤ tieExtend v (findNearestLowerNeighbour v (ct + dt)))]
      rw [hsing]
  | k + 1, fuel, ct, hist, hprev, hk, hsing, hfuel => by
      obtain ⟨f, rfl⟩ : ∃ f, fuel = f + 1 := ⟨fuel - 1, by omega⟩
      obtain ⟨hct0, M0, hM0⟩ := hprev 0 (by omega)
      have hct : ct < v.getD (v.length - 1) 0 := by
        rw [Nat.cast_zero, zero_mul, add_zero] at hct0
        exact hct0
      have harg : ct + (((0 : Nat) : ℚ) + 1) * dt = ct + dt := by push_cast; ring
      rw [harg] at hM0
      unfold covarianceLoop
      rw [if_pos hct]
      simp only []
      have hlen : 0 < v.length := List.length_pos.mpr hv
      have hidxle : tieExtend v (findNearestLowerNeighbour v (ct + dt)) ≤
          v.length - 1 := tieExtend_le (fNLN_le v (ct + dt))
      rw [if_neg (by omega :
        ¬ v.length ≤ tieExtend v (findNearestLowerNeighbour v (ct + dt)))]
      rw [hM0]
      apply covarianceLoop_sing_step v S w nf ap dt hv k f (ct + dt) _
      · intro j hj
        obtain ⟨ha, M', hM'⟩ := hprev (j + 1) (by omega)
        constructor
        · have e : ct + dt + (j : ℚ) * dt = ct + ((j + 1 : Nat) : ℚ) * dt := by
            push_cast; ring
          rw [e]
          exact ha
        · refine ⟨M', ?_⟩
          have e : ct + dt + ((j : ℚ) + 1) * dt =
              ct + (((j + 1 : Nat) : ℚ) + 1) * dt := by push_cast; ring
          rw [e]
          exact hM'
      · have e : ct + dt + (k : ℚ) * dt = ct + ((k + 1 : Nat) : ℚ) * dt := by
          push_cast; ring
        rw [e]
        exact hk
      · have e : ct + dt + ((k : ℚ) + 1) * dt =
            ct + (((k + 1 : Nat) : ℚ) + 1) * dt := by push_cast; ring
        rw [e]
        exact hsing
      · omega

/-- C4: if at any output step the updated normalized covariance sum is not
invertible (the earlier output steps having run and succeeded, so that the
step is reached), `calculateCovarianceMatrixAsFunctionOfTime` fails with the
`singularMatrix` error, which propagates to the caller instead of a covariance
entry being produced for that epoch. -/
theorem c4_singular_matrix_error {md : PodInputType} {H : DMat} {nf : List ℚ}
    {dt : ℚ} {w : List ℚ} {ap : DMat} {fuel : Nat}
    (h1 : ¬ ap.cols ≠ ap.rows) (h2 : ¬ H.cols ≠ ap.cols)
    (h3 : ¬ nf.length ≠ ap.cols) (h4 : ¬ H.rows ≠ w.length)
    {S : DMat} {v : List ℚ} {tOrd : List Nat}
    (hto : getTimeOrderedInformationMatrix md H = .ok (S, v, tOrd))
    {t0 : ℚ} {rest : List ℚ} (hv : v = t0 :: rest)
    (k : Nat)
    (hprev : ∀ j : Nat, j < k →
      t0 + (j : ℚ) * dt < v.getD (v.length - 1) 0 ∧
      ∃ M, covAtIndex S (timeOrderWeights w tOrd) nf ap
        (tieExtend v (findNearestLowerNeighbour v (t0 + ((j : ℚ) + 1) * dt))) =
          .ok M)
    (hk : t0 + (k : ℚ) * dt < v.getD (v.length - 1) 0)
    (hsing : dmatInv (calculateInverseOfUpdatedCovarianceMatrix
      ⟨tieExtend v (findNearestLowerNeighbour v (t0 + ((k : ℚ) + 1) * dt)) + 1,
        S.cols, S.entry⟩
      ((timeOrderWeights w tOrd).take
        (tieExtend v (findNearestLowerNeighbour v (t0 + ((k : ℚ) + 1) * dt)) + 1))
      ap) = none)
    (hfuel : k + 1 ≤ fuel) :
    calculateCovarianceMatrixAsFunctionOfTime md H nf dt w ap fuel =
      .error .singularMatrix := by
  rw [calcCov_eq_loop h1 h2 h3 h4 hto hv]
  exact covarianceLoop_sing_step v S (timeOrderWeights w tOrd) nf ap dt
    (by rw [hv]; simp) k fuel t0 [] hprev hk (covAtIndex_sing hsing) hfuel

/-- Witness for C4 at two concrete inputs: the spec's all-zero example, where
the very first output step's sum is singular, and a three-observation run
whose first output step succeeds while the second output step's sum is
singular. -/
theorem c4_singular_matrix_error_witness :
    calculateCovarianceMatrixAsFunctionOfTime (mdTimes [0, 1])
      (dmatOfLists [[0], [0]] 1) [1] 1 [1, 1] (dmatOfLists [[0]] 1) 5 =
        .error .singularMatrix ∧
    calculateCovarianceMatrixAsFunctionOfTime (mdTimes [0, 1, 2])
      (dmatOfLists [[1], [1], [1]] 1) [1] 1 [1, 1, -3] (idMat 1) 5 =
        .error .singularMatrix := by
  constructor
  · have hto : getTimeOrderedInformationMatrix (mdTimes [0, 1])
        (dmatOfLists [[0], [0]] 1) =
          .ok (c4Triple.1, c4Triple.2.1, c4Triple.2.2) := rfl
    have hv : c4Triple.2.1 = (0 : ℚ) :: [1] := by decide
    exact c4_singular_matrix_error (by decide) (by decide) (by decide)
      (by decide) hto hv 0 (fun j hj => absurd hj (Nat.not_lt_zero j))
      (by decide) rfl (by decide)
  · have hto : getTimeOrderedInformationMatrix (mdTimes [0, 1, 2])
        (dmatOfLists [[1], [1], [1]] 1) =
          .ok (c4bTriple.1, c4bTriple.2.1, c4bTriple.2.2) := rfl
    have hv : c4bTriple.2.1 = (0 : ℚ) :: [1, 2] := by decide
    have hprev : ∀ j : Nat, j < 1 →
        (0 : ℚ) + (j : ℚ) * 1 <
          c4bTriple.2.1.getD (c4bTriple.2.1.length - 1) 0 ∧
        ∃ M, covAtIndex c4bTriple.1 (timeOrderWeights [1, 1, -3] c4bTriple.2.2)
          [1] (idMat 1)
          (tieExtend c4bTriple.2.1 (findNearestLowerNeighbour c4bTriple.2.1
            ((0 : ℚ) + ((j : ℚ) + 1) * 1))) = .ok M := by
      intro j hj
      match j, hj with
      | 0, _ => exact ⟨by decide, ⟨c4bcov, rfl⟩⟩
    exact c4_singular_matrix_error (by decide) (by decide) (by decide)
      (by decide) hto hv 1 hprev (by decide) rfl (by decide)

/-- C9: with a positive output time step the output-time loop terminates (some
fuel suffices, for every input), while with a non-positive step the loop never
terminates whenever it is entered (two distinct observation times, shape checks
passing, every per-step computation succeeding): the function performs no
validation rejecting a non-positive output time step and exhausts any amount
of fuel instead. -/
theorem c9_loop_termination :
    (∀ (md : PodInputType) (H : DMat) (nf : List ℚ) (dt : ℚ) (w : List ℚ)
        (ap : DMat), 0 < dt →
        ∃ fuel, calculateCovarianceMatrixAsFunctionOfTime md H nf dt w ap fuel ≠
          .error .outOfFuel) ∧
    (∀ (md : PodInputType) (H : DMat) (nf : List ℚ) (dt : ℚ) (w : List ℚ)
        (ap : DMat) (S : DMat) (v : List ℚ) (tOrd : List Nat),
        dt ≤ 0 →
        ¬ ap.cols ≠ ap.rows → ¬ H.cols ≠ ap.cols → ¬ nf.length ≠ ap.cols →
        ¬ H.rows ≠ w.length →
        getTimeOrderedInformationMatrix md H = .ok (S, v, tOrd) →
        v ≠ [] →
        v.getD 0 0 < v.getD (v.length - 1) 0 →
        (∀ i, i < v.length →
          ∃ M, covAtIndex S (timeOrderWeights w tOrd) nf ap i = .ok M) →
        ∀ fuel, calculateCovarianceMatrixAsFunctionOfTime md H nf dt w ap fuel =
          .error .outOfFuel) := by
  constructor
  · intro md H nf dt w ap hdt
    by_cases h1 : ap.cols ≠ ap.rows
    · refine ⟨0, ?_⟩
      unfold calculateCovarianceMatrixAsFunctionOfTime
      rw [if_pos h1]
      simp
    · by_cases h2 : H.cols ≠ ap.cols
      · refine ⟨0, ?_⟩
        unfold calculateCovarianceMatrixAsFunctionOfTime
        rw [if_neg h1]
        simp only []
        rw [if_pos h2]
        simp
      · by_cases h3 : nf.length ≠ ap.cols
        · refine ⟨0, ?_⟩
          unfold calculateCovarianceMatrixAsFunctionOfTime
          rw [if_neg h1]
          simp only []
          rw [if_neg h2, if_pos h3]
          simp
        · by_cases h4 : H.rows ≠ w.length
          · refine ⟨0, ?_⟩
            unfold calculateCovarianceMatrixAsFunctionOfTime
            rw [if_neg h1]
            simp only []
            rw [if_neg h2, if_neg h3, if_pos h4]
            simp
          · cases hto : getTimeOrderedInformationMatrix md H with
            | error e =>
                refine ⟨0, ?_⟩
                unfold calculateCovarianceMatrixAsFunctionOfTime
                rw [if_neg h1]
                simp only []
                rw [if_neg h2, if_neg h3, if_neg h4, hto]
                rw [getTimeOrdered_error_elim hto]
                simp
            | ok x =>
                obtain ⟨S, v, tOrd⟩ := x
                cases hv : v with
                | nil =>
                    refine ⟨0, ?_⟩
                    unfold calculateCovarianceMatrixAsFunctionOfTime
                    rw [if_neg h1]
                    simp only []
                    rw [if_neg h2, if_neg h3, if_neg h4, hto, hv]
                    simp
                | cons t0 rest =>
                    obtain ⟨n, hn⟩ := exists_nat_gt
                      ((v.getD (v.length - 1) 0 - t0) / dt)
                    refine ⟨n, ?_⟩
                    rw [calcCov_eq_loop h1 h2 h3 h4 hto hv]
                    exact covarianceLoop_terminates v S (timeOrderWeights w tOrd)
                      nf ap dt hdt n t0 [] hn
  · intro md H nf dt w ap S v tOrd hdt h1 h2 h3 h4 hto hne hspan hcov fuel
    cases hv : v with
    | nil => exact absurd hv hne
    | cons t0 rest =>
        rw [calcCov_eq_loop h1 h2 h3 h4 hto hv]
        have ht0 : v.getD 0 0 = t0 := by rw [hv]; rfl
        have hspan' : t0 < v.getD (v.length - 1) 0 := ht0 ▸ hspan
        exact covarianceLoop_diverges v S (timeOrderWeights w tOrd) nf ap dt hdt
          hne hcov fuel t0 [] hspan'

/-- Witness for C9: a positive step terminates on the concrete two-observation
input, and a zero step exhausts a concrete fuel of 3 on the same input. -/
theorem c9_loop_termination_witness :
    (0 : ℚ) < 1 ∧
    (∃ fuel, calculateCovarianceMatrixAsFunctionOfTime (mdTimes [0, 1])
      (dmatOfLists [[1], [1]] 1) [1] 1 [1, 1] (idMat 1) fuel ≠
        .error .outOfFuel) ∧
    calculateCovarianceMatrixAsFunctionOfTime (mdTimes [0, 1])
      (dmatOfLists [[1], [1]] 1) [1] 0 [1, 1] (idMat 1) 3 =
        .error .outOfFuel := by
  refine ⟨by decide,
    c9_loop_termination.1 (mdTimes [0, 1]) (dmatOfLists [[1], [1]] 1) [1] 1
      [1, 1] (idMat 1) (by decide), ?_⟩
  have hto : getTimeOrderedInformationMatrix (mdTimes [0, 1])
      (dmatOfLists [[1], [1]] 1) =
        .ok (c9Triple.1, c9Triple.2.1, c9Triple.2.2) := rfl
  have hcov : ∀ i, i < c9Triple.2.1.length →
      ∃ M, covAtIndex c9Triple.1 (timeOrderWeights [1, 1] c9Triple.2.2) [1]
        (idMat 1) i = .ok M := by
    intro i hi
    have hl : c9Triple.2.1.length = 2 := by decide
    rw [hl] at hi
    match i, hi with
    | 0, _ => exact ⟨c9cov 0, rfl⟩
    | 1, _ => exact ⟨c9cov 1, rfl⟩
  exact c9_loop_termination.2 (mdTimes [0, 1]) (dmatOfLists [[1], [1]] 1) [1] 0
    [1, 1] (idMat 1) c9Triple.1 c9Triple.2.1 c9Triple.2.2 (by decide) (by decide)
    (by decide) (by decide) (by decide) hto (by decide) (by decide) hcov 3
